import Mathlib

/-!
Verification of the munchys arcade-game core against its specification.

Numbers are modelled exactly: JavaScript numeric state is embedded as `ℚ`
(all arithmetic the claims touch is addition, subtraction, multiplication,
division and absolute value, which JavaScript evaluates on the same values
the rational model produces for the inputs considered), and square roots
are taken in `ℝ` via `Real.sqrt`.  Randomness is made explicit: every call
that the source routes through `randomBetween` / `pickFromList` receives
its sample as an oracle argument, so every function here is deterministic
in its full argument list, exactly as the source is deterministic in its
random draws.
-/

namespace Munchys

/-! ## Geometry: square-root comparisons made decidable

The source compares `Math.sqrt e < c`.  Over `ℝ` this is not directly
decidable, so we record the equivalent rational test and register it as a
`Decidable` instance; the equivalence is proved, not assumed. -/

theorem sqrt_lt_iff_rat (q c : ℚ) :
    Real.sqrt (q : ℝ) < (c : ℝ) ↔ 0 < c ∧ q < c ^ 2 := by
  constructor
  · intro h
    have hc : (0 : ℝ) < c := lt_of_le_of_lt (Real.sqrt_nonneg _) h
    have hc' : (0 : ℚ) < c := by exact_mod_cast hc
    refine ⟨hc', ?_⟩
    have := (Real.sqrt_lt' hc).mp h
    exact_mod_cast this
  · rintro ⟨hc, hlt⟩
    have hc' : (0 : ℝ) < c := by exact_mod_cast hc
    refine (Real.sqrt_lt' hc').mpr ?_
    exact_mod_cast hlt

instance sqrtLtDecidable (q c : ℚ) : Decidable (Real.sqrt (q : ℝ) < (c : ℝ)) :=
  decidable_of_iff (0 < c ∧ q < c ^ 2) (sqrt_lt_iff_rat q c).symm

/-! ## Entities and circle-circle collision

`game/character/obstacle.js` reads only the centre coordinates `cx`, `cy`
and the `radius` of the two sprites involved, so an entity is embedded as
those three fields. -/

structure Ent where
  cx : ℚ
  cy : ℚ
  radius : ℚ
  deriving DecidableEq, Repr

/-- Embeds `Obstacle.collidesWith(entity)`:
`vx = entity.cx - this.cx; vy = entity.cy - this.cy;`
`distance = Math.sqrt(vx*vx + vy*vy); return distance < (entity.radius + this.radius)`.
`self` plays the role of `this` and `entity` of the argument. -/
def collidesWith (self entity : Ent) : Prop :=
  Real.sqrt (((entity.cx - self.cx) * (entity.cx - self.cx)
      + (entity.cy - self.cy) * (entity.cy - self.cy) : ℚ) : ℝ)
    < ((entity.radius + self.radius : ℚ) : ℝ)

instance (a b : Ent) : Decidable (collidesWith a b) :=
  sqrtLtDecidable _ _

/-- The squared Euclidean distance between the centres of two entities;
the Euclidean distance itself is `Real.sqrt (centerDistSq a b)`. -/
def centerDistSq (a b : Ent) : ℚ :=
  (b.cx - a.cx) ^ 2 + (b.cy - a.cy) ^ 2

theorem collidesWith_iff_dist (a b : Ent) :
    collidesWith a b ↔
      Real.sqrt ((centerDistSq a b : ℚ) : ℝ) < ((b.radius + a.radius : ℚ) : ℝ) := by
  unfold collidesWith centerDistSq
  rw [show ((b.cx - a.cx) * (b.cx - a.cx) + (b.cy - a.cy) * (b.cy - a.cy) : ℚ)
        = (b.cx - a.cx) ^ 2 + (b.cy - a.cy) ^ 2 by ring]

/-- C1: for every obstacle `a` and entity `b`, `a.collidesWith(b)` holds iff the
Euclidean distance between their centres is strictly less than the sum of the
two radii; in particular, at distance exactly equal to the sum the result is
false. -/
theorem collidesWith_lt_sum_radii (a b : Ent) :
    (collidesWith a b ↔
      Real.sqrt ((centerDistSq a b : ℚ) : ℝ) < ((a.radius + b.radius : ℚ) : ℝ))
    ∧ (Real.sqrt ((centerDistSq a b : ℚ) : ℝ) = ((a.radius + b.radius : ℚ) : ℝ) →
      ¬ collidesWith a b) := by
  have hsum : ((b.radius + a.radius : ℚ) : ℝ) = ((a.radius + b.radius : ℚ) : ℝ) := by
    push_cast; ring
  constructor
  · rw [collidesWith_iff_dist, hsum]
  · intro heq hcol
    rw [collidesWith_iff_dist, hsum, heq] at hcol
    exact lt_irrefl _ hcol

/-- Witness for C1 at a concrete boundary input: entities centred at `(0,0)` and
`(2,0)`, each of radius `1`, are at distance exactly `2 = 1 + 1` and do not
collide. -/
theorem collidesWith_lt_sum_radii_witness :
    ¬ collidesWith ⟨0, 0, 1⟩ ⟨2, 0, 1⟩ :=
  (collidesWith_lt_sum_radii ⟨0, 0, 1⟩ ⟨2, 0, 1⟩).2 (by
    have h4 : ((centerDistSq ⟨0, 0, 1⟩ ⟨2, 0, 1⟩ : ℚ) : ℝ) = 4 := by
      norm_num [centerDistSq]
    have h2 : (((1 : ℚ) + 1 : ℚ) : ℝ) = 2 := by norm_num
    rw [h4, h2, show (4 : ℝ) = 2 ^ 2 by norm_num]
    exact Real.sqrt_sq (by norm_num))

/-- C10: `collidesWith` is symmetric — `a.collidesWith(b)` and `b.collidesWith(a)`
agree for all entities `a`, `b`. -/
theorem collidesWith_symm (a b : Ent) :
    collidesWith a b ↔ collidesWith b a := by
  unfold collidesWith
  rw [show ((a.cx - b.cx) * (a.cx - b.cx) + (a.cy - b.cy) * (a.cy - b.cy) : ℚ)
      = ((b.cx - a.cx) * (b.cx - a.cx) + (b.cy - a.cy) * (b.cy - a.cy) : ℚ) by ring,
    show (a.radius + b.radius : ℚ) = (b.radius + a.radius : ℚ) by ring]

/-! ## Particle effects (`game/objects/effects.js`)

A Burst owns a list of image shards, a BlastWave a list of colored rings.
Both `tick` methods run the same JavaScript loop shape:

    for (let i = 0; i < list.length; i++) {
      let p = list[i];            // update p in place
      if (p.size < 1) list.splice(i, 1);
      draw(p);
    }

`spliceLoopF` embeds that loop for an arbitrary element update `upd` and
removal test `rem`, with the mutable array made explicit (`List.set` for the
in-place field writes, `List.eraseIdx` for `splice(i, 1)`).  The structural
`fuel` argument only bounds the iteration count; calls always supply
`fuel = l.length`, which is sufficient because `i` grows by one per iteration
while the length never grows, so the loop exits after at most `l.length`
iterations.  The second component collects the particles passed to the draw
call, in draw order (the source draws a particle even on the iteration that
splices it out). -/

structure Shard where
  x : ℚ
  y : ℚ
  r : ℚ
  rd : ℚ
  vx : ℚ
  vy : ℚ
  dr : ℤ
  deriving DecidableEq, Repr

structure Wave where
  x : ℚ
  y : ℚ
  width : ℚ
  rd : ℚ
  hue : ℚ
  alpha : ℚ
  deriving DecidableEq, Repr

def spliceLoopF {α : Type} (upd : α → α) (rem : α → Bool) :
    ℕ → ℕ → List α → List α × List α
  | 0, _, l => (l, [])
  | fuel + 1, i, l =>
    if h : i < l.length then
      let e2 := upd (l.get ⟨i, h⟩)
      let l1 := l.set i e2
      if rem e2 then
        let rest := spliceLoopF upd rem fuel (i + 1) (l1.eraseIdx i)
        (rest.1, e2 :: rest.2)
      else
        let rest := spliceLoopF upd rem fuel (i + 1) l1
        (rest.1, e2 :: rest.2)
    else (l, [])

/-- The loop body of `Burst.tick` on one shard:
`x += vx; y += vy; r += 0.1 * dr; rd = Math.abs(rd - burnRate)`. -/
def shardStep (burnRate : ℚ) (s : Shard) : Shard :=
  { s with
    x := s.x + s.vx
    y := s.y + s.vy
    r := s.r + 1 / 10 * (s.dr : ℚ)
    rd := |s.rd - burnRate| }

/-- Removal test of `Burst.tick`: `shard.rd < 1`. -/
def shardBurned (s : Shard) : Bool := s.rd < 1

structure Burst where
  active : Bool
  burnRate : ℚ
  shards : List Shard
  deriving DecidableEq, Repr

/-- Embeds `Burst.tick`: return if inactive; flag inactive and return when no
shards remain; otherwise run the splice loop over the shards.  The second
component is the list of drawn shards (`drawImageParticle` calls). -/
def Burst.tick (bu : Burst) : Burst × List Shard :=
  if !bu.active then (bu, [])
  else if bu.shards.length = 0 then ({ bu with active := false }, [])
  else
    let r := spliceLoopF (shardStep bu.burnRate) shardBurned bu.shards.length 0 bu.shards
    ({ bu with shards := r.1 }, r.2)

/-- The loop body of `BlastWave.tick` on one wave:
`rd += burnRate * 8; width -= burnRate / 2; hue -= burnRate / 2;`
`alpha -= burnRate * 0.0075`. -/
def waveStep (burnRate : ℚ) (w : Wave) : Wave :=
  { w with
    rd := w.rd + burnRate * 8
    width := w.width - burnRate / 2
    hue := w.hue - burnRate / 2
    alpha := w.alpha - burnRate * (3 / 400) }

/-- Removal test of `BlastWave.tick`: `wave.width < 1`. -/
def waveBurned (w : Wave) : Bool := w.width < 1

structure BlastWave where
  active : Bool
  burnRate : ℚ
  waves : List Wave
  deriving DecidableEq, Repr

/-- Embeds `BlastWave.tick`, structurally identical to `Burst.tick` with the
wave update and the `width < 1` removal test. -/
def BlastWave.tick (bw : BlastWave) : BlastWave × List Wave :=
  if !bw.active then (bw, [])
  else if bw.waves.length = 0 then ({ bw with active := false }, [])
  else
    let r := spliceLoopF (waveStep bw.burnRate) waveBurned bw.waves.length 0 bw.waves
    ({ bw with waves := r.1 }, r.2)

/-! ## Emitters and effect constructors

`imagePraticleEmitter` (the source's spelling) and `radialWaveEmitter` sample
each field independently per particle.  The sampling primitives live in
`game/utils/baseUtils.js`, which is not among the provided sources, so they
are modelled from the spec with the random draws passed in as oracles. -/

/-- A scalar-or-range input, as accepted by `valueOrRange`. -/
inductive VR : Type
  | val (q : ℚ)
  | range (lo hi : ℚ)
  deriving DecidableEq, Repr

/-- Modelled from the spec: `valueOrRange` (from `game/utils/baseUtils.js`,
absent from the sources) passes a scalar through unchanged and samples a
`[min, max]` range uniformly; the uniform draw is the oracle `rnd ∈ [0, 1]`,
mapped affinely onto the range. -/
def valueOrRange (v : VR) (rnd : ℚ) : ℚ :=
  match v with
  | .val q => q
  | .range lo hi => lo + rnd * (hi - lo)

/-- Modelled from the spec: `pickFromList([1, -1])` (from
`game/utils/baseUtils.js`, absent from the sources) picks uniformly from the
two-element list; the draw is the oracle boolean. -/
def pickSign (b : Bool) : ℤ := if b then 1 else -1

/-- Embeds `imagePraticleEmitter`: `n` shards, each field resolved
independently through `valueOrRange` (oracle `rnd k j` is the draw for field
`j` of shard `k`) and `dr` picked from `{1, -1}`.  The image reference is not
part of the numeric state. -/
def imagePraticleEmitter (n : ℕ) (x y r rd vx vy : VR)
    (rnd : ℕ → ℕ → ℚ) (sgn : ℕ → Bool) : List Shard :=
  (List.range n).map fun k =>
    { x := valueOrRange x (rnd k 0)
      y := valueOrRange y (rnd k 1)
      r := valueOrRange r (rnd k 2)
      rd := valueOrRange rd (rnd k 3)
      vx := valueOrRange vx (rnd k 4)
      vy := valueOrRange vy (rnd k 5)
      dr := pickSign (sgn k) }

/-- Embeds `radialWaveEmitter` (the `n = 1` default is supplied by callers). -/
def radialWaveEmitter (n : ℕ) (x y rd width hue alpha : VR)
    (rnd : ℕ → ℕ → ℚ) : List Wave :=
  (List.range n).map fun k =>
    { x := valueOrRange x (rnd k 0)
      y := valueOrRange y (rnd k 1)
      width := valueOrRange width (rnd k 2)
      rd := valueOrRange rd (rnd k 3)
      hue := valueOrRange hue (rnd k 4)
      alpha := valueOrRange alpha (rnd k 5) }

/-- Embeds the `Burst` constructor: `active = true`, shards from
`imagePraticleEmitter` with `r: 0`, `rd: [5, 20]`, and `vx`/`vy` defaulting to
`[-10, 10]` when not supplied (`vx || [-10, 10]`). -/
def mkBurst (n : ℕ) (x y : VR) (vx vy : Option VR) (burnRate : ℚ)
    (rnd : ℕ → ℕ → ℚ) (sgn : ℕ → Bool) : Burst :=
  { active := true
    burnRate := burnRate
    shards := imagePraticleEmitter n x y (.val 0) (.range 5 20)
      (vx.getD (.range (-10) 10)) (vy.getD (.range (-10) 10)) rnd sgn }

/-- Embeds the `BlastWave` constructor: the burn rate input (scalar or range)
is resolved once and divided by 100; one wave is emitted with `rd: 25`, the
given width, hue `color.hsl[0]` (the hex-to-HSL conversion is an external
library call, so the resulting hue is a parameter here) and alpha 1. -/
def mkBlastWave (x y : ℚ) (width : VR) (hue0 : ℚ) (burnRate : VR)
    (rnd0 : ℚ) (rnd : ℕ → ℕ → ℚ) : BlastWave :=
  { active := true
    burnRate := valueOrRange burnRate rnd0 / 100
    waves := radialWaveEmitter 1 (.val x) (.val y) (.val 25) width
      (.val hue0) (.val 1) rnd }

/-! ## C3: the active/inactive lifecycle, and C2: the splice-skip hazard -/

/-- C3: for Burst and BlastWave alike, a tick on an inactive effect is a no-op
that returns the state unchanged and draws nothing; the first tick that finds
the particle collection empty flags the effect inactive and draws nothing; and
a tick that finds particles leaves the effect active.  Together these give the
lifecycle of the claim: the `active := false` transition fires exactly once —
on the first tick with an empty collection — and every later tick is a no-op
rendering no particle. -/
theorem effect_deactivates_once (bu : Burst) (bw : BlastWave) :
    ((bu.active = false → bu.tick = (bu, []))
      ∧ (bu.active = true → bu.shards = [] → bu.tick.1.active = false ∧ bu.tick.2 = [])
      ∧ (bu.active = true → bu.shards ≠ [] → bu.tick.1.active = true))
    ∧ ((bw.active = false → bw.tick = (bw, []))
      ∧ (bw.active = true → bw.waves = [] → bw.tick.1.active = false ∧ bw.tick.2 = [])
      ∧ (bw.active = true → bw.waves ≠ [] → bw.tick.1.active = true)) := by
  refine ⟨⟨?_, ?_, ?_⟩, ⟨?_, ?_, ?_⟩⟩
  · intro h; simp [Burst.tick, h]
  · intro h1 h2; simp [Burst.tick, h1, h2]
  · intro h1 h2; simp [Burst.tick, h1, List.length_eq_zero, h2]
  · intro h; simp [BlastWave.tick, h]
  · intro h1 h2; simp [BlastWave.tick, h1, h2]
  · intro h1 h2; simp [BlastWave.tick, h1, List.length_eq_zero, h2]

/-- Witness for C3 at concrete inputs: a tick on an inactive one-shard Burst
(resp. one-wave BlastWave) returns it unchanged and draws nothing. -/
theorem effect_deactivates_once_witness :
    Burst.tick ⟨false, 1, [⟨0, 0, 0, 5, 1, 1, 1⟩]⟩
        = (⟨false, 1, [⟨0, 0, 0, 5, 1, 1, 1⟩]⟩, [])
    ∧ BlastWave.tick ⟨false, 1, [⟨0, 0, 50, 25, 10, 1⟩]⟩
        = (⟨false, 1, [⟨0, 0, 50, 25, 10, 1⟩]⟩, []) :=
  ⟨(effect_deactivates_once ⟨false, 1, [⟨0, 0, 0, 5, 1, 1, 1⟩]⟩
      ⟨false, 1, [⟨0, 0, 50, 25, 10, 1⟩]⟩).1.1 rfl,
   (effect_deactivates_once ⟨false, 1, [⟨0, 0, 0, 5, 1, 1, 1⟩]⟩
      ⟨false, 1, [⟨0, 0, 50, 25, 10, 1⟩]⟩).2.1 rfl⟩

/-- A shard that burns out on the next tick (`|3/2 - 1| = 1/2 < 1`). -/
def skipShardA : Shard := ⟨0, 0, 0, 3/2, 1, 1, 1⟩

/-- A healthy shard sitting right after `skipShardA` in the array. -/
def skipShardB : Shard := ⟨0, 0, 0, 5, 1, 1, 1⟩

/-- A Burst whose first shard is removed on the next tick. -/
def skipBurst : Burst := ⟨true, 1, [skipShardA, skipShardB]⟩

/-- C2 fails on the code: ticking `skipBurst` splices out the first shard at
index 0, the second shard shifts into slot 0, and the `i++` of the loop steps
past it — so the second shard, alive at tick-start, survives the tick with its
position not advanced (`x` still `0` despite `vx = 1`) and is absent from the
draw list (which contains only the burned-out first shard). -/
theorem burst_tick_skips_second_shard :
    skipBurst.tick.1.shards = [skipShardB]
    ∧ skipBurst.tick.2 = [⟨1, 1, 1/10, 1/2, 1, 1, 1⟩]
    ∧ skipShardB.x = 0 ∧ skipShardB.vx = 1 := by
  norm_num [skipBurst, skipShardA, skipShardB, Burst.tick, spliceLoopF,
    shardStep, shardBurned, Shard.mk.injEq, abs]

/-! ## Player characters

Three versions of the player exist in the repository:
`frontend/game/characters/player.js` (clamps the sprite index with `bounded`
and recomputes `radius` inside `eat()`), the copy at `src/unnamed/part_000`
(caps the sprite index only from above with `Math.min` and never touches
`radius`), and `game/characters/player.js` (a bare `eat()` adding `0.5` to
each dimension, no `update`, no `radius` line).  They are embedded separately
as `PlayerF`, `Player0` and `PlayerG`. -/

/-- JavaScript `Math.round`: round half toward positive infinity,
`Math.round(x) = ⌊x + 1/2⌋`. -/
def jsRound (q : ℚ) : ℤ := ⌊q + 1/2⌋

/-- Modelled from the spec: `bounded` (from `game/utils/baseUtils.js`, absent
from the sources) clamps its argument into `[lo, hi]` — the spec's "clamped to
the valid index range". -/
def bounded (v lo hi : ℤ) : ℤ := max lo (min v hi)

/-- JavaScript array indexing: `l[i]` is `undefined` (here `none`) unless
`0 ≤ i < l.length`. -/
def jsIndex {α : Type} (l : List α) (i : ℤ) : Option α :=
  if h : 0 ≤ i ∧ i < (l.length : ℤ) then some (l.get ⟨i.toNat, by omega⟩) else none

structure PlayerF where
  width : ℚ
  height : ℚ
  radius : ℚ
  originalWidth : ℚ
  originalHeight : ℚ
  canvasWidth : ℚ
  images : List ℕ
  image : Option ℕ
  deriving DecidableEq, Repr

/-- The sprite index computed by the frontend `Player.update()`:
`max = ctx.canvas.width / 2; i = (width / max) * images.length;`
`idx = bounded(Math.round(i) - 1, 0, images.length - 1)`. -/
def spriteIdxF (p : PlayerF) : ℤ :=
  bounded (jsRound (p.width / (p.canvasWidth / 2) * p.images.length) - 1)
    0 ((p.images.length : ℤ) - 1)

/-- Embeds the frontend `Player.update()`: recompute the sprite index and set
`this.image = this.images[idx]`. -/
def PlayerF.update (p : PlayerF) : PlayerF :=
  { p with image := jsIndex p.images (spriteIdxF p) }

/-- Embeds the frontend `Player.eat()`: `width += 1; height += 1;`
`radius = (width + height) / 4` (on the incremented size); then `update()`. -/
def PlayerF.eat (p : PlayerF) : PlayerF :=
  PlayerF.update
    { p with
      width := p.width + 1
      height := p.height + 1
      radius := (p.width + 1 + (p.height + 1)) / 4 }

/-- Embeds the frontend `Player.blaze()`: `width = originalWidth;`
`height = originalHeight` (note: no `radius` assignment); then `update()`. -/
def PlayerF.blaze (p : PlayerF) : PlayerF :=
  PlayerF.update { p with width := p.originalWidth, height := p.originalHeight }

/-- Embeds the frontend `Player` constructor: the base `ImageSprite` class is
not among the provided sources, so its part is modelled from the spec —
the base constructor stores the given size and derives
`radius = (width + height) / 4`; the subclass then records `originalWidth`
and `originalHeight` from the same options. -/
def mkPlayerF (width height canvasWidth : ℚ) (images : List ℕ) : PlayerF :=
  { width := width
    height := height
    radius := (width + height) / 4
    originalWidth := width
    originalHeight := height
    canvasWidth := canvasWidth
    images := images
    image := none }

structure Player0 where
  width : ℚ
  height : ℚ
  radius : ℚ
  originalWidth : ℚ
  originalHeight : ℚ
  canvasWidth : ℚ
  images : List ℕ
  image : Option ℕ
  deriving DecidableEq, Repr

/-- The sprite index computed by the `part_000` `Player.update()`:
`idx = Math.min(Math.round(i) - 1, images.length - 1)` — no lower clamp. -/
def spriteIdx0 (p : Player0) : ℤ :=
  min (jsRound (p.width / (p.canvasWidth / 2) * p.images.length) - 1)
    ((p.images.length : ℤ) - 1)

/-- Embeds the `part_000` `Player.update()`. -/
def Player0.update (p : Player0) : Player0 :=
  { p with image := jsIndex p.images (spriteIdx0 p) }

/-- Embeds the `part_000` `Player.eat()`: `width += 1; height += 1` (no
`radius` assignment in this version); then `update()`. -/
def Player0.eat (p : Player0) : Player0 :=
  Player0.update { p with width := p.width + 1, height := p.height + 1 }

/-- Embeds the `part_000` `Player.blaze()`. -/
def Player0.blaze (p : Player0) : Player0 :=
  Player0.update { p with width := p.originalWidth, height := p.originalHeight }

/-- Embeds the `part_000` `Player` constructor; the `ImageSprite` radius is modelled from
the spec as in `mkPlayerF`. -/
def mkPlayer0 (width height canvasWidth : ℚ) (images : List ℕ) : Player0 :=
  { width := width
    height := height
    radius := (width + height) / 4
    originalWidth := width
    originalHeight := height
    canvasWidth := canvasWidth
    images := images
    image := none }

structure PlayerG where
  width : ℚ
  height : ℚ
  radius : ℚ
  deriving DecidableEq, Repr

/-- Embeds `game/characters/player.js` `Player.eat()`:
`width += 0.5; height += 0.5` and nothing else. -/
def PlayerG.eat (p : PlayerG) : PlayerG :=
  { p with width := p.width + 1/2, height := p.height + 1/2 }

/-- Embeds the `game/characters/player.js` `Player` constructor; the `ImageSprite` radius
is modelled from the spec as `radius = (width + height) / 4`. -/
def mkPlayerG (width height : ℚ) : PlayerG :=
  { width := width, height := height, radius := (width + height) / 4 }

/-! ## C4: blaze restores the construction size after any run of eats -/

theorem eatF_iter_fixed (p : PlayerF) (n : ℕ) :
    ((PlayerF.eat)^[n] p).originalWidth = p.originalWidth
    ∧ ((PlayerF.eat)^[n] p).originalHeight = p.originalHeight := by
  induction n with
  | zero => exact ⟨rfl, rfl⟩
  | succ n ih =>
    rw [Function.iterate_succ_apply']
    simpa [PlayerF.eat, PlayerF.update] using ih

theorem eat0_iter_fixed (p : Player0) (n : ℕ) :
    ((Player0.eat)^[n] p).originalWidth = p.originalWidth
    ∧ ((Player0.eat)^[n] p).originalHeight = p.originalHeight := by
  induction n with
  | zero => exact ⟨rfl, rfl⟩
  | succ n ih =>
    rw [Function.iterate_succ_apply']
    simpa [Player0.eat, Player0.update] using ih

/-- C4: for a player constructed with width `w` and height `h`, any number of
`eat()` calls followed by one `blaze()` restores `width` to exactly `w` and
`height` to exactly `h` — both for the frontend player and for the `part_000`
player. -/
theorem eat_blaze_restores_size (w h cw : ℚ) (imgs : List ℕ) (n : ℕ) :
    ((PlayerF.blaze ((PlayerF.eat)^[n] (mkPlayerF w h cw imgs))).width = w
      ∧ (PlayerF.blaze ((PlayerF.eat)^[n] (mkPlayerF w h cw imgs))).height = h)
    ∧ ((Player0.blaze ((Player0.eat)^[n] (mkPlayer0 w h cw imgs))).width = w
      ∧ (Player0.blaze ((Player0.eat)^[n] (mkPlayer0 w h cw imgs))).height = h) := by
  have hFw : ((PlayerF.eat)^[n] (mkPlayerF w h cw imgs)).originalWidth = w :=
    (eatF_iter_fixed (mkPlayerF w h cw imgs) n).1
  have hFh : ((PlayerF.eat)^[n] (mkPlayerF w h cw imgs)).originalHeight = h :=
    (eatF_iter_fixed (mkPlayerF w h cw imgs) n).2
  have h0w : ((Player0.eat)^[n] (mkPlayer0 w h cw imgs)).originalWidth = w :=
    (eat0_iter_fixed (mkPlayer0 w h cw imgs) n).1
  have h0h : ((Player0.eat)^[n] (mkPlayer0 w h cw imgs)).originalHeight = h :=
    (eat0_iter_fixed (mkPlayer0 w h cw imgs) n).2
  refine ⟨⟨?_, ?_⟩, ⟨?_, ?_⟩⟩
  · simp [PlayerF.blaze, PlayerF.update, hFw]
  · simp [PlayerF.blaze, PlayerF.update, hFh]
  · simp [Player0.blaze, Player0.update, h0w]
  · simp [Player0.blaze, Player0.update, h0h]

/-! ## C5: is the radius always `(width + height) / 4` of the current size? -/

/-- C5 fails on the code: in the frontend player, `blaze()` resets the size
but does not recompute `radius`, so after one `eat()` (radius `5.5`) a
`blaze()` (size back to `10 × 10`) leaves a stale radius `5.5 ≠ 5`; and in
`game/characters/player.js`, `eat()` grows the size without touching `radius`
at all (`5 ≠ 5.25`). -/
theorem radius_stale_counterexample :
    ((PlayerF.blaze (PlayerF.eat (mkPlayerF 10 10 1000 [0, 1, 2, 3, 4]))).radius
      ≠ ((PlayerF.blaze (PlayerF.eat (mkPlayerF 10 10 1000 [0, 1, 2, 3, 4]))).width
          + (PlayerF.blaze (PlayerF.eat (mkPlayerF 10 10 1000 [0, 1, 2, 3, 4]))).height) / 4)
    ∧ ((PlayerG.eat (mkPlayerG 10 10)).radius
      ≠ ((PlayerG.eat (mkPlayerG 10 10)).width + (PlayerG.eat (mkPlayerG 10 10)).height) / 4) := by
  constructor
  · norm_num [PlayerF.blaze, PlayerF.eat, PlayerF.update, mkPlayerF]
  · norm_num [PlayerG.eat, mkPlayerG]

/-- C5 amended: the part of the invariant the code does maintain — the
frontend `eat()` recomputes `radius` as `(width + height) / 4` of the
just-updated size, so the radius is never stale immediately after `eat()`. -/
theorem eat_recomputes_radius (p : PlayerF) :
    (PlayerF.eat p).radius = ((PlayerF.eat p).width + (PlayerF.eat p).height) / 4 := by
  simp [PlayerF.eat, PlayerF.update]

/-! ## C6: the sprite index stays inside the image list -/

/-- C6 for the frontend player: with a non-empty image list (and any
nonnegative width), the index computed by `update()` lies in
`[0, images.length - 1]`, and the image lookup is in bounds. -/
theorem spriteIdxF_in_range (p : PlayerF) (_hw : 0 ≤ p.width) (himg : p.images ≠ []) :
    0 ≤ spriteIdxF p ∧ spriteIdxF p ≤ (p.images.length : ℤ) - 1
    ∧ (jsIndex p.images (spriteIdxF p)).isSome = true := by
  have hlen : 1 ≤ p.images.length := List.length_pos.mpr himg
  have h0 : 0 ≤ spriteIdxF p := le_max_left _ _
  have h1 : spriteIdxF p ≤ (p.images.length : ℤ) - 1 := by
    refine max_le (by omega) (min_le_right _ _)
  refine ⟨h0, h1, ?_⟩
  have : 0 ≤ spriteIdxF p ∧ spriteIdxF p < (p.images.length : ℤ) := ⟨h0, by omega⟩
  simp [jsIndex, this]

/-- Witness for C6 at a concrete input: a `10 × 10` player on a `1000`-wide
canvas with five images. -/
theorem spriteIdxF_in_range_witness :
    0 ≤ spriteIdxF (mkPlayerF 10 10 1000 [0, 1, 2, 3, 4])
    ∧ spriteIdxF (mkPlayerF 10 10 1000 [0, 1, 2, 3, 4])
        ≤ ((mkPlayerF 10 10 1000 [0, 1, 2, 3, 4]).images.length : ℤ) - 1
    ∧ (jsIndex (mkPlayerF 10 10 1000 [0, 1, 2, 3, 4]).images
        (spriteIdxF (mkPlayerF 10 10 1000 [0, 1, 2, 3, 4]))).isSome = true :=
  spriteIdxF_in_range (mkPlayerF 10 10 1000 [0, 1, 2, 3, 4])
    (by norm_num [mkPlayerF]) (by simp [mkPlayerF])

/-- C6 fails on the `part_000` player: at width `0` (with five images on a
`1000`-wide canvas) `Math.min(Math.round(0) - 1, 4)` is `-1`, outside
`[0, images.length - 1]`, and the image lookup `images[-1]` is `undefined`. -/
theorem spriteIdx0_out_of_range :
    spriteIdx0 (mkPlayer0 0 10 1000 [0, 1, 2, 3, 4]) = -1
    ∧ jsIndex (mkPlayer0 0 10 1000 [0, 1, 2, 3, 4]).images
        (spriteIdx0 (mkPlayer0 0 10 1000 [0, 1, 2, 3, 4])) = none := by
  have h : spriteIdx0 (mkPlayer0 0 10 1000 [0, 1, 2, 3, 4]) = -1 := by
    norm_num [spriteIdx0, mkPlayer0, jsRound]
  refine ⟨h, ?_⟩
  rw [h]
  norm_num [jsIndex, mkPlayer0]

/-! ## Game loop fragments (`game/main.js`)

Only the two `play`-state steps the claims address are embedded: the
obstacle-spawn step and the game-over check.  `Game.state` mutation goes
through `setState`, which snapshots `prev := current` before applying the
change. -/

structure GameST where
  current : String
  prev : String
  effects : List Burst
  deriving DecidableEq, Repr

/-- Embeds `setState({ current: c })`: `prev` is snapshotted from the current
state before the change is merged in. -/
def setStateCurrent (s : GameST) (c : String) : GameST :=
  { s with prev := s.current, current := c }

/-- Embeds the game-over check of `Game.play` (inside the
`state.current === 'play'` branch): when `player.width > canvas.width / 2`,
push one `Burst` with `n: 200`, `x: [player.x, player.x + width]`,
`y: [player.y, player.y + height]`, `vx: [-5, 5]`, `vy: [-10, 1]`,
`burnRate: 0.01`, then `setState({ current: 'over' })`.  The sound calls
(`playback`, `stopPlayback`) touch only the audio playlist, not this state. -/
def gameOverCheck (playerX playerY playerW playerH canvasW : ℚ)
    (rnd : ℕ → ℕ → ℚ) (sgn : ℕ → Bool) (s : GameST) : GameST :=
  if s.current = "play" then
    if canvasW / 2 < playerW then
      setStateCurrent
        { s with effects := s.effects ++
          [mkBurst 200 (.range playerX (playerX + playerW))
            (.range playerY (playerY + playerH))
            (some (.range (-5) 5)) (some (.range (-10) 1)) (1/100) rnd sgn] }
        "over"
    else s
  else s

/-- C7: on a play-state frame whose player width exceeds half the canvas
width, exactly one Burst is pushed onto the effects collection — it has 200
shards and is active — and the state transitions from `play` (snapshotted
into `prev`) to `over` on that same frame. -/
theorem game_over_frame (px py pw ph cw : ℚ) (rnd : ℕ → ℕ → ℚ) (sgn : ℕ → Bool)
    (s : GameST) (hplay : s.current = "play") (hw : cw / 2 < pw) :
    ∃ b : Burst,
      gameOverCheck px py pw ph cw rnd sgn s
        = { current := "over", prev := "play", effects := s.effects ++ [b] }
      ∧ b.shards.length = 200 ∧ b.active = true := by
  refine ⟨mkBurst 200 (.range px (px + pw)) (.range py (py + ph))
    (some (.range (-5) 5)) (some (.range (-10) 1)) (1/100) rnd sgn, ?_, ?_, rfl⟩
  · simp [gameOverCheck, hplay, hw, setStateCurrent]
  · simp [mkBurst, imagePraticleEmitter]

/-- Witness for C7: a `501`-wide player on a `1000`-wide canvas during `play`
triggers the transition and the single 200-shard burst. -/
theorem game_over_frame_witness :
    ∃ b : Burst,
      gameOverCheck 0 0 501 501 1000 (fun _ _ => 0) (fun _ => true)
          ⟨"play", "ready", []⟩
        = { current := "over", prev := "play", effects := [] ++ [b] }
      ∧ b.shards.length = 200 ∧ b.active = true :=
  game_over_frame 0 0 501 501 1000 (fun _ _ => 0) (fun _ => true)
    ⟨"play", "ready", []⟩ rfl (by norm_num)

/-! ## The spawn step -/

structure SpawnEnt where
  x : ℚ
  y : ℚ
  width : ℚ
  height : ℚ
  type : String
  speed : ℚ
  deriving DecidableEq, Repr

/-- The squared distance between an entity's `(x, y)` and a point. -/
def getDistanceSq (x1 y1 x2 y2 : ℚ) : ℚ := (x2 - x1) ^ 2 + (y2 - y1) ^ 2

/-- Modelled from the spec: `getDistance` (from `game/utils/spriteUtils.js`,
absent from the sources) is the Euclidean distance between two points, i.e.
`Real.sqrt (getDistanceSq …)`; the `<` comparison against a bound is decided
through the rational equivalent proved in `sqrt_lt_iff_rat`. -/
def distLt (x1 y1 x2 y2 bound : ℚ) : Bool :=
  decide (Real.sqrt ((getDistanceSq x1 y1 x2 y2 : ℚ) : ℝ) < ((bound : ℚ) : ℝ))

/-- Embeds the obstacle-spawn step of `Game.play`:

    let munchTime = frame.count % 600 === 0;
    let shouldAddObstacle = entities.length < 6;
    if (munchTime || shouldAddObstacle) {
      let location = { x: randomBetween(...), y: -200 };
      let inValidLocation = entities.some(ent =>
        getDistance(ent, location) < playerSize.width * 3);
      if (!inValidLocation && !munchTime) entities.push(food obstacle);
      if (!inValidLocation && munchTime) entities.push(weed obstacle);
    }

The random x draw is the oracle `locX`; the food/weed image resizing only
fixes the pushed obstacle's `width`/`height`, supplied here as parameters. -/
def spawnStep (frameCount : ℕ) (playerW gameSpeed foodW foodH weedW weedH locX : ℚ)
    (ents : List SpawnEnt) : List SpawnEnt :=
  let munchTime : Bool := frameCount % 600 == 0
  let shouldAddObstacle : Bool := decide (ents.length < 6)
  if munchTime || shouldAddObstacle then
    let inValidLocation : Bool :=
      ents.any fun ent => distLt ent.x ent.y locX (-200) (playerW * 3)
    let ents1 :=
      if !inValidLocation && !munchTime then
        ents ++ [⟨locX, -200, foodW, foodH, "food", gameSpeed⟩]
      else ents
    if !inValidLocation && munchTime then
      ents1 ++ [⟨locX, -200, weedW, weedH, "weed", gameSpeed⟩]
    else ents1
  else ents

/-- C8: with 6 or more obstacles active and a frame count that is not a
multiple of 600, the spawn step adds nothing; and whenever the spawn step
adds a food obstacle, there were fewer than 6 entities and the chosen
location is at least `3 × playerWidth` away from every existing entity. -/
theorem spawn_step_policy (frameCount : ℕ)
    (pw gs fw fh ww wh locX : ℚ) (ents : List SpawnEnt) :
    (6 ≤ ents.length → frameCount % 600 ≠ 0 →
      spawnStep frameCount pw gs fw fh ww wh locX ents = ents)
    ∧ (∀ e : SpawnEnt,
      spawnStep frameCount pw gs fw fh ww wh locX ents = ents ++ [e] →
      e.type = "food" →
      ents.length < 6 ∧ ∀ ent ∈ ents,
        ((pw * 3 : ℚ) : ℝ)
          ≤ Real.sqrt ((getDistanceSq ent.x ent.y locX (-200) : ℚ) : ℝ)) := by
  constructor
  · intro hlen hframe
    simp only [spawnStep]
    have h1 : (frameCount % 600 == 0) = false := by simpa using hframe
    have h2 : decide (ents.length < 6) = false := by simpa using hlen
    simp [h1, h2]
  · intro e hadd htype
    by_cases hmt : frameCount % 600 = 0
    · -- munch-time frame: only a weed can be pushed, never a food
      exfalso
      have h1 : (frameCount % 600 == 0) = true := by simpa using hmt
      simp only [spawnStep, h1] at hadd
      simp at hadd
      split at hadd
      · have he : e = ⟨locX, -200, ww, wh, "weed", gs⟩ := by
          have := List.append_cancel_left hadd
          simpa using this.symm
        rw [he] at htype
        simp at htype
      · simp at hadd
    · have h1 : (frameCount % 600 == 0) = false := by simpa using hmt
      simp only [spawnStep, h1] at hadd
      simp at hadd
      split at hadd
      next hsa =>
        split at hadd
        next hiv =>
          refine ⟨hsa, ?_⟩
          intro ent hent
          have hd := hiv ent hent
          have hnot : ¬ Real.sqrt ((getDistanceSq ent.x ent.y locX (-200) : ℚ) : ℝ)
              < ((pw * 3 : ℚ) : ℝ) := by
            simpa [distLt] using hd
          exact not_lt.mp hnot
        next hiv =>
          exfalso; simp at hadd
      next hsa =>
        exfalso; simp at hadd

/-- Witness for C8: with six entities present and frame count 1, the spawn
step leaves the entity list unchanged. -/
theorem spawn_step_policy_witness :
    spawnStep 1 10 1 20 20 20 20 0
        (List.replicate 6 ⟨0, 0, 20, 20, "food", 1⟩)
      = List.replicate 6 ⟨0, 0, 20, 20, "food", 1⟩ :=
  (spawn_step_policy 1 10 1 20 20 20 20 0
      (List.replicate 6 ⟨0, 0, 20, 20, "food", 1⟩)).1
    (by simp) (by norm_num)

/-! ## C9: termination analysis of the effect ticks

Both removal tests have the shape `size < 1`; `remBelow m` abstracts them
over the measured field `m`.  `phiSum m l = Σ (max (m e) 0 + 1)` is the
termination measure: it never increases across a tick, and strictly drops by
at least `min δ 1` whenever the list is non-empty, where `δ` is the exact
per-processing decrease of the measured field of a surviving element. -/

def remBelow {α : Type} (m : α → ℚ) (e : α) : Bool := m e < 1

theorem shardBurned_eq_remBelow : shardBurned = remBelow (fun s : Shard => s.rd) := rfl

theorem waveBurned_eq_remBelow : waveBurned = remBelow (fun w : Wave => w.width) := rfl

def phiTerm {α : Type} (m : α → ℚ) (e : α) : ℚ := max (m e) 0 + 1

def phiSum {α : Type} (m : α → ℚ) (l : List α) : ℚ := (l.map (phiTerm m)).sum

theorem one_le_phiTerm {α : Type} (m : α → ℚ) (e : α) : 1 ≤ phiTerm m e := by
  have h := le_max_right (m e) 0
  simp only [phiTerm]
  linarith

theorem phiSum_nil {α : Type} (m : α → ℚ) : phiSum m ([] : List α) = 0 := rfl

theorem phiSum_cons {α : Type} (m : α → ℚ) (a : α) (l : List α) :
    phiSum m (a :: l) = phiTerm m a + phiSum m l := by
  simp [phiSum]

theorem phiSum_nonneg {α : Type} (m : α → ℚ) (l : List α) : 0 ≤ phiSum m l := by
  induction l with
  | nil => simp [phiSum_nil]
  | cons a l ih =>
    have := one_le_phiTerm m a
    rw [phiSum_cons]
    linarith

theorem set_eraseIdx_eq {α : Type} (l : List α) (i : ℕ) (a : α) :
    (l.set i a).eraseIdx i = l.eraseIdx i := by
  induction l generalizing i with
  | nil => rfl
  | cons x l ih =>
    cases i with
    | zero => rfl
    | succ i => simp [List.set_cons_succ, List.eraseIdx_cons_succ, ih]

theorem phiSum_set {α : Type} (m : α → ℚ) (l : List α) (i : ℕ) (a : α)
    (h : i < l.length) :
    phiSum m (l.set i a) + phiTerm m (l.get ⟨i, h⟩) = phiSum m l + phiTerm m a := by
  induction l generalizing i with
  | nil => simp at h
  | cons x l ih =>
    cases i with
    | zero => simp [phiSum_cons]; ring
    | succ i =>
      have h' : i < l.length := by simpa using h
      have := ih i h'
      simp only [List.set_cons_succ, phiSum_cons, List.get_cons_succ]
      linarith

theorem phiSum_eraseIdx {α : Type} (m : α → ℚ) (l : List α) (i : ℕ)
    (h : i < l.length) :
    phiSum m (l.eraseIdx i) + phiTerm m (l.get ⟨i, h⟩) = phiSum m l := by
  induction l generalizing i with
  | nil => simp at h
  | cons x l ih =>
    cases i with
    | zero => simp [phiSum_cons]; ring
    | succ i =>
      have h' : i < l.length := by simpa using h
      have := ih i h'
      simp only [List.eraseIdx_cons_succ, phiSum_cons, List.get_cons_succ]
      linarith

section SpliceAnalysis

variable {α : Type} (upd : α → α) (m : α → ℚ) (P : α → Prop) (δ : ℚ)

/-- Elements kept by the loop satisfy the invariant, provided updating a
surviving element preserves it. -/
theorem spliceLoopF_pres
    (hP : ∀ e, P e → remBelow m (upd e) = false → P (upd e)) :
    ∀ (fuel i : ℕ) (l : List α), (∀ e ∈ l, P e) →
      ∀ e ∈ (spliceLoopF upd (remBelow m) fuel i l).1, P e := by
  intro fuel
  induction fuel with
  | zero => intro i l hl; simpa [spliceLoopF] using hl
  | succ f ih =>
    intro i l hl
    simp only [spliceLoopF]
    split
    next h =>
      split
      next hr =>
        rw [set_eraseIdx_eq]
        exact ih (i + 1) (l.eraseIdx i)
          (fun e he => hl e (List.mem_of_mem_eraseIdx he))
      next hr =>
        refine ih (i + 1) (l.set i (upd (l.get ⟨i, h⟩))) ?_
        intro e he
        rcases List.mem_or_eq_of_mem_set he with he' | he'
        · exact hl e he'
        · subst he'
          exact hP _ (hl _ (l.get_mem i _)) (by simpa using hr)
    next h => simpa using hl

/-- The measure never increases across one run of the loop. -/
theorem spliceLoopF_phi_mono
    (hupd : ∀ e, P e → remBelow m (upd e) = false → m (upd e) = m e - δ)
    (hP : ∀ e, P e → remBelow m (upd e) = false → P (upd e))
    (hδ : 0 < δ) :
    ∀ (fuel i : ℕ) (l : List α), (∀ e ∈ l, P e) →
      phiSum m (spliceLoopF upd (remBelow m) fuel i l).1 ≤ phiSum m l := by
  intro fuel
  induction fuel with
  | zero => intro i l hl; simp [spliceLoopF]
  | succ f ih =>
    intro i l hl
    simp only [spliceLoopF]
    split
    next h =>
      split
      next hr =>
        rw [set_eraseIdx_eq]
        have h1 := ih (i + 1) (l.eraseIdx i)
          (fun e he => hl e (List.mem_of_mem_eraseIdx he))
        have h2 := phiSum_eraseIdx m l i h
        have h3 := one_le_phiTerm m (l.get ⟨i, h⟩)
        simpa using le_trans h1 (by linarith)
      next hr =>
        have hrf : remBelow m (upd (l.get ⟨i, h⟩)) = false := by simpa using hr
        have h1 := ih (i + 1) (l.set i (upd (l.get ⟨i, h⟩))) (by
          intro e he
          rcases List.mem_or_eq_of_mem_set he with he' | he'
          · exact hl e he'
          · subst he'
            exact hP _ (hl _ (l.get_mem i _)) hrf)
        have h2 := phiSum_set m l i (upd (l.get ⟨i, h⟩)) h
        have h4 : m (upd (l.get ⟨i, h⟩)) = m (l.get ⟨i, h⟩) - δ :=
          hupd _ (hl _ (l.get_mem i _)) hrf
        have h5 : (1 : ℚ) ≤ m (upd (l.get ⟨i, h⟩)) := by
          have := of_decide_eq_false hrf
          simpa [remBelow] using not_lt.mp (by simpa [remBelow] using this)
        have h6 : phiTerm m (upd (l.get ⟨i, h⟩)) ≤ phiTerm m (l.get ⟨i, h⟩) := by
          simp only [phiTerm]
          rw [max_eq_left (by linarith : (0:ℚ) ≤ m (upd (l.get ⟨i, h⟩))),
            max_eq_left (by linarith : (0:ℚ) ≤ m (l.get ⟨i, h⟩))]
          linarith
        simpa using le_trans h1 (by linarith)
    next h => simp

/-- On a non-empty list the measure strictly drops by at least `min δ 1`:
index 0 is always processed, and its element is either removed (dropping a
whole `phiTerm`, which is at least 1) or its measured field shrinks by `δ`. -/
theorem spliceLoopF_phi_dec
    (hupd : ∀ e, P e → remBelow m (upd e) = false → m (upd e) = m e - δ)
    (hP : ∀ e, P e → remBelow m (upd e) = false → P (upd e))
    (hδ : 0 < δ) :
    ∀ (l : List α), 0 < l.length → (∀ e ∈ l, P e) →
      phiSum m (spliceLoopF upd (remBelow m) l.length 0 l).1
        ≤ phiSum m l - min δ 1 := by
  intro l hlen hl
  cases hfl : l.length with
  | zero => omega
  | succ f =>
    have h0 : 0 < l.length := hlen
    simp only [spliceLoopF]
    split
    next h =>
      split
      next hr =>
        rw [set_eraseIdx_eq]
        have h1 := spliceLoopF_phi_mono upd m P δ hupd hP hδ f 1 (l.eraseIdx 0)
          (fun e he => hl e (List.mem_of_mem_eraseIdx he))
        have h2 := phiSum_eraseIdx m l 0 h
        have h3 := one_le_phiTerm m (l.get ⟨0, h⟩)
        have h4 : min δ 1 ≤ 1 := min_le_right _ _
        simpa using le_trans h1 (by linarith)
      next hr =>
        have hrf : remBelow m (upd (l.get ⟨0, h⟩)) = false := by simpa using hr
        have h1 := spliceLoopF_phi_mono upd m P δ hupd hP hδ f 1
          (l.set 0 (upd (l.get ⟨0, h⟩))) (by
            intro e he
            rcases List.mem_or_eq_of_mem_set he with he' | he'
            · exact hl e he'
            · subst he'
              exact hP _ (hl _ (l.get_mem 0 _)) hrf)
        have h2 := phiSum_set m l 0 (upd (l.get ⟨0, h⟩)) h
        have h4 : m (upd (l.get ⟨0, h⟩)) = m (l.get ⟨0, h⟩) - δ :=
          hupd _ (hl _ (l.get_mem 0 _)) hrf
        have h5 : (1 : ℚ) ≤ m (upd (l.get ⟨0, h⟩)) := by
          have := of_decide_eq_false hrf
          simpa [remBelow] using not_lt.mp (by simpa [remBelow] using this)
        have h6 : phiTerm m (upd (l.get ⟨0, h⟩)) = phiTerm m (l.get ⟨0, h⟩) - δ := by
          simp only [phiTerm]
          rw [max_eq_left (by linarith : (0:ℚ) ≤ m (upd (l.get ⟨0, h⟩))),
            max_eq_left (by linarith : (0:ℚ) ≤ m (l.get ⟨0, h⟩))]
          linarith
        have h7 : min δ 1 ≤ δ := min_le_left _ _
        simpa using le_trans h1 (by linarith)
    next h => omega

end SpliceAnalysis

/-- One simulation step of a Burst: the state part of `tick` (the draw list is
discarded). -/
def stepBurst (bu : Burst) : Burst := bu.tick.1

/-- One simulation step of a BlastWave. -/
def stepWave (bw : BlastWave) : BlastWave := bw.tick.1

theorem stepBurst_eq (bu : Burst) (ha : bu.active = true) (hs : bu.shards ≠ []) :
    stepBurst bu = ⟨true, bu.burnRate,
      (spliceLoopF (shardStep bu.burnRate) shardBurned
        bu.shards.length 0 bu.shards).1⟩ := by
  rcases bu with ⟨act, b, sh⟩
  simp only at ha
  subst ha
  simp [stepBurst, Burst.tick, List.length_eq_zero, hs]

theorem stepWave_eq (bw : BlastWave) (ha : bw.active = true) (hs : bw.waves ≠ []) :
    stepWave bw = ⟨true, bw.burnRate,
      (spliceLoopF (waveStep bw.burnRate) waveBurned
        bw.waves.length 0 bw.waves).1⟩ := by
  rcases bw with ⟨act, b, wv⟩
  simp only at ha
  subst ha
  simp [stepWave, BlastWave.tick, List.length_eq_zero, hs]

theorem burst_phi_induction (k : ℕ) :
    ∀ (bu : Burst), 0 < bu.burnRate → bu.burnRate < 2 →
    (∀ s ∈ bu.shards, 1 ≤ s.rd) →
    phiSum (fun s : Shard => s.rd) bu.shards ≤ k * min bu.burnRate 1 →
    ∃ n, ((stepBurst)^[n] bu).active = false := by
  induction k with
  | zero =>
    intro bu hb hb1 hinv hphi
    cases hact : bu.active with
    | false => exact ⟨0, by simpa using hact⟩
    | true =>
      cases hsh : bu.shards with
      | nil =>
        refine ⟨1, ?_⟩
        simp [Function.iterate_one, stepBurst, Burst.tick, hact, hsh]
      | cons s t =>
        exfalso
        rw [hsh, phiSum_cons] at hphi
        have h1 := one_le_phiTerm (fun s : Shard => s.rd) s
        have h2 := phiSum_nonneg (fun s : Shard => s.rd) t
        simp only [Nat.cast_zero, zero_mul] at hphi
        linarith
  | succ k ih =>
    intro bu hb hb1 hinv hphi
    cases hact : bu.active with
    | false => exact ⟨0, by simpa using hact⟩
    | true =>
      cases hsh : bu.shards with
      | nil =>
        refine ⟨1, ?_⟩
        simp [Function.iterate_one, stepBurst, Burst.tick, hact, hsh]
      | cons s t =>
        have hne : bu.shards ≠ [] := by rw [hsh]; simp
        have hpos : 0 < bu.shards.length := by rw [hsh]; simp
        have hupd : ∀ e : Shard, 1 ≤ e.rd →
            remBelow (fun s : Shard => s.rd) (shardStep bu.burnRate e) = false →
            (shardStep bu.burnRate e).rd = e.rd - bu.burnRate := by
          intro e he hr
          have h1 : (1 : ℚ) ≤ (shardStep bu.burnRate e).rd :=
            not_lt.mp (of_decide_eq_false hr)
          simp only [shardStep] at h1 ⊢
          have hbe : bu.burnRate ≤ e.rd := by
            by_contra hlt
            push_neg at hlt
            rw [abs_of_nonpos (by linarith)] at h1
            linarith
          exact abs_of_nonneg (by linarith)
        have hP : ∀ e : Shard, 1 ≤ e.rd →
            remBelow (fun s : Shard => s.rd) (shardStep bu.burnRate e) = false →
            1 ≤ (shardStep bu.burnRate e).rd := by
          intro e _ hr
          exact not_lt.mp (of_decide_eq_false hr)
        have hstep := stepBurst_eq bu hact hne
        have hinv' : ∀ e ∈ (stepBurst bu).shards, 1 ≤ e.rd := by
          rw [hstep]
          rw [shardBurned_eq_remBelow]
          exact spliceLoopF_pres (shardStep bu.burnRate) (fun s : Shard => s.rd)
            (fun s : Shard => 1 ≤ s.rd) hP bu.shards.length 0 bu.shards hinv
        have hphi' : phiSum (fun s : Shard => s.rd) (stepBurst bu).shards
            ≤ phiSum (fun s : Shard => s.rd) bu.shards - min bu.burnRate 1 := by
          rw [hstep]
          rw [shardBurned_eq_remBelow]
          exact spliceLoopF_phi_dec (shardStep bu.burnRate) (fun s : Shard => s.rd)
            (fun s : Shard => 1 ≤ s.rd) bu.burnRate hupd hP hb bu.shards hpos hinv
        have hbr : (stepBurst bu).burnRate = bu.burnRate := by rw [hstep]
        obtain ⟨n, hn⟩ := ih (stepBurst bu) (by rw [hbr]; exact hb)
          (by rw [hbr]; exact hb1) hinv' (by
            rw [hbr]
            have : ((k + 1 : ℕ) : ℚ) = (k : ℚ) + 1 := by push_cast; ring
            rw [this] at hphi
            linarith)
        exact ⟨n + 1, by rw [Function.iterate_succ_apply]; exact hn⟩

theorem wave_phi_induction (k : ℕ) :
    ∀ (bw : BlastWave), 0 < bw.burnRate →
    phiSum (fun w : Wave => w.width) bw.waves ≤ k * min (bw.burnRate / 2) 1 →
    ∃ n, ((stepWave)^[n] bw).active = false := by
  induction k with
  | zero =>
    intro bw hb hphi
    cases hact : bw.active with
    | false => exact ⟨0, by simpa using hact⟩
    | true =>
      cases hsh : bw.waves with
      | nil =>
        refine ⟨1, ?_⟩
        simp [Function.iterate_one, stepWave, BlastWave.tick, hact, hsh]
      | cons w t =>
        exfalso
        rw [hsh, phiSum_cons] at hphi
        have h1 := one_le_phiTerm (fun w : Wave => w.width) w
        have h2 := phiSum_nonneg (fun w : Wave => w.width) t
        simp only [Nat.cast_zero, zero_mul] at hphi
        linarith
  | succ k ih =>
    intro bw hb hphi
    cases hact : bw.active with
    | false => exact ⟨0, by simpa using hact⟩
    | true =>
      cases hsh : bw.waves with
      | nil =>
        refine ⟨1, ?_⟩
        simp [Function.iterate_one, stepWave, BlastWave.tick, hact, hsh]
      | cons w t =>
        have hne : bw.waves ≠ [] := by rw [hsh]; simp
        have hpos : 0 < bw.waves.length := by rw [hsh]; simp
        have hδ : 0 < bw.burnRate / 2 := by linarith
        have hupd : ∀ e : Wave, True →
            remBelow (fun w : Wave => w.width) (waveStep bw.burnRate e) = false →
            (waveStep bw.burnRate e).width = e.width - bw.burnRate / 2 := by
          intro e _ _
          simp [waveStep]
        have hP : ∀ e : Wave, True →
            remBelow (fun w : Wave => w.width) (waveStep bw.burnRate e) = false →
            True := by
          intro e _ _
          trivial
        have hstep := stepWave_eq bw hact hne
        have hphi' : phiSum (fun w : Wave => w.width) (stepWave bw).waves
            ≤ phiSum (fun w : Wave => w.width) bw.waves - min (bw.burnRate / 2) 1 := by
          rw [hstep]
          rw [waveBurned_eq_remBelow]
          exact spliceLoopF_phi_dec (waveStep bw.burnRate) (fun w : Wave => w.width)
            (fun _ : Wave => True) (bw.burnRate / 2) hupd hP hδ bw.waves hpos
            (fun _ _ => trivial)
        have hbr : (stepWave bw).burnRate = bw.burnRate := by rw [hstep]
        obtain ⟨n, hn⟩ := ih (stepWave bw) (by rw [hbr]; exact hb) (by
          rw [hbr]
          have : ((k + 1 : ℕ) : ℚ) = (k : ℚ) + 1 := by push_cast; ring
          rw [this] at hphi
          linarith)
        exact ⟨n + 1, by rw [Function.iterate_succ_apply]; exact hn⟩

/-- C9 amended: every Burst whose burn rate lies in `(0, 2)` and whose shards
all start with radius at least 1 (as sampled from `[5, 20]` by the
constructor), and every BlastWave with positive (normalized) burn rate,
reaches `active = false` after finitely many ticks; the tick count is
deterministic because `tick` is a function of the state.  Under the radius
invariant a processed shard with `rd < burnRate + 1` is removed outright when
`burnRate < 2` (either `rd ≥ burnRate` and `|rd - burnRate| = rd - burnRate
< 1`, or `rd < burnRate` and `|rd - burnRate| = burnRate - rd ≤ burnRate - 1
< 1`), and a surviving shard loses exactly `burnRate`, so the measure
argument covers all of `(0, 2)`.  The bound `burnRate < 2` is forced by the
counterexample `cexBurst_never_inactive` at burn rate exactly 2. -/
theorem effects_reach_inactive :
    (∀ bu : Burst, 0 < bu.burnRate → bu.burnRate < 2 →
      (∀ s ∈ bu.shards, 1 ≤ s.rd) →
      ∃ n, ((stepBurst)^[n] bu).active = false)
    ∧ (∀ bw : BlastWave, 0 < bw.burnRate →
      ∃ n, ((stepWave)^[n] bw).active = false) := by
  constructor
  · intro bu hb hb1 hinv
    have hε : 0 < min bu.burnRate 1 := lt_min hb one_pos
    obtain ⟨k, hk⟩ := exists_nat_ge
      (phiSum (fun s : Shard => s.rd) bu.shards / min bu.burnRate 1)
    refine burst_phi_induction k bu hb hb1 hinv ?_
    rwa [div_le_iff₀ hε] at hk
  · intro bw hb
    have hε : 0 < min (bw.burnRate / 2) 1 := lt_min (by linarith) one_pos
    obtain ⟨k, hk⟩ := exists_nat_ge
      (phiSum (fun w : Wave => w.width) bw.waves / min (bw.burnRate / 2) 1)
    refine wave_phi_induction k bw hb ?_
    rwa [div_le_iff₀ hε] at hk

/-- Witness for C9 (amended): a one-shard Burst with burn rate 1 and a
one-wave BlastWave with burn rate 1 both deactivate after finitely many
ticks. -/
theorem effects_reach_inactive_witness :
    (∃ n, ((stepBurst)^[n] (⟨true, 1, [⟨0, 0, 0, 5, 1, 1, 1⟩]⟩ : Burst)).active = false)
    ∧ (∃ n, ((stepWave)^[n] (⟨true, 1, [⟨0, 0, 50, 25, 10, 1⟩]⟩ : BlastWave)).active = false) :=
  ⟨effects_reach_inactive.1 ⟨true, 1, [⟨0, 0, 0, 5, 1, 1, 1⟩]⟩
      (by norm_num) (by norm_num)
      (by intro s hs; simp at hs; rw [hs]; norm_num),
   effects_reach_inactive.2 ⟨true, 1, [⟨0, 0, 50, 25, 10, 1⟩]⟩ (by norm_num)⟩

/-- A Burst built by the constructor with burn rate `2` whose single shard
samples radius `5` (the low end of the constructor's `[5, 20]` range). -/
def cexBurst : Burst :=
  mkBurst 1 (.val 0) (.val 0) none none 2 (fun _ _ => 0) (fun _ => true)

/-- The invariant that traps `cexBurst` forever: one shard whose radius cycles
through `5 → 3 → 1 → 1 → …` under `rd ↦ |rd - 2|`, never dropping below the
removal threshold `1`. -/
def cexInv (bu : Burst) : Prop :=
  bu.active = true ∧ bu.burnRate = 2
    ∧ ∃ s : Shard, bu.shards = [s] ∧ (s.rd = 5 ∨ s.rd = 3 ∨ s.rd = 1)

theorem cexInv_init : cexInv cexBurst := by
  refine ⟨rfl, rfl, ⟨⟨0, 0, 0, 5, -10, -10, 1⟩, ?_, by norm_num⟩⟩
  norm_num [cexBurst, mkBurst, imagePraticleEmitter, valueOrRange, pickSign,
    List.range_succ]

theorem cexInv_step (bu : Burst) (h : cexInv bu) : cexInv (stepBurst bu) := by
  obtain ⟨ha, hb, s, hs, hrd⟩ := h
  have hne : bu.shards ≠ [] := by rw [hs]; simp
  rw [stepBurst_eq bu ha hne, hs, hb]
  refine ⟨rfl, rfl, ⟨shardStep 2 s, ?_, ?_⟩⟩
  · rcases hrd with hrd | hrd | hrd <;>
      norm_num [spliceLoopF, shardBurned, shardStep, hrd, abs]
  · rcases hrd with hrd | hrd | hrd <;>
      norm_num [shardStep, hrd, abs]

theorem cexInv_iter (n : ℕ) : cexInv ((stepBurst)^[n] cexBurst) := by
  induction n with
  | zero => simpa using cexInv_init
  | succ n ih =>
    rw [Function.iterate_succ_apply']
    exact cexInv_step _ ih

/-- C9 fails as stated: `cexBurst` has a non-zero (positive) burn rate and
fixed inputs, yet no number of ticks ever makes it inactive — its shard's
radius cycles `5 → 3 → 1 → 1 → …` under `rd ↦ |rd - 2|` and never falls
below the removal threshold. -/
theorem cexBurst_never_inactive :
    0 < cexBurst.burnRate
    ∧ ¬ ∃ n, ((stepBurst)^[n] cexBurst).active = false := by
  constructor
  · norm_num [cexBurst, mkBurst]
  · rintro ⟨n, hn⟩
    have h := (cexInv_iter n).1
    rw [h] at hn
    simp at hn

end Munchys
